import Mathlib

/-!
Verification development for the BD-CARG-2shape conversion pipeline
(`BDgpkg2shape.py`, `script/BDgpkg2shapePRO.py`, `openlibs/gpkg_pipeline.py`).

The Python code is shallowly embedded as follows.

* Attribute values flowing through cursors are modelled by `PyVal`:
  `none` (Python `None`), `int`, `float` and `str`.  Python floats are
  modelled as rationals; `str()` of a float is modelled as a plain decimal
  rendering (no exponent notation, no binary rounding), which is exact for
  the decimal codes held by domain tables.
* Python dictionaries keyed by heterogeneous values are modelled as
  association lists under the Python equality relation `pyEq` (under which
  `1 == 1.0` holds, mirroring `hash(1) == hash(1.0)` based dict collapsing).
* `str.strip()` is `pyStrip` (drop ASCII whitespace at both ends),
  `str.isdigit()` after `replace('.','').replace('-','')` is `digitish`,
  and `float(s)` is `parseFloat` (sign, digits, at most one dot; Python's
  exponent/underscore forms are outside the model).
-/

/-- Values a cursor row can carry: Python None, int, float (as a rational)
or str. -/
inductive PyVal where
  | none : PyVal
  | int : ℤ → PyVal
  | float : ℚ → PyVal
  | str : String → PyVal
deriving DecidableEq, Repr

/-- Python `==` on the values above: strings compare by content, ints and
floats compare numerically (so `1 == 1.0`), `None == None`, everything
else is unequal. -/
def pyEq : PyVal → PyVal → Bool
  | PyVal.none, PyVal.none => true
  | PyVal.str s, PyVal.str t => decide (s = t)
  | PyVal.int m, PyVal.int n => decide (m = n)
  | PyVal.int m, PyVal.float q => decide ((m : ℚ) = q)
  | PyVal.float q, PyVal.int n => decide (q = (n : ℚ))
  | PyVal.float p, PyVal.float q => decide (p = q)
  | _, _ => false

/-- Numeric view of a value, used to reason about `pyEq`. -/
def qv : PyVal → Option ℚ
  | PyVal.int n => some (n : ℚ)
  | PyVal.float q => some q
  | _ => Option.none

theorem pyEq_iff (a b : PyVal) :
    pyEq a b = true ↔
      (a = PyVal.none ∧ b = PyVal.none) ∨
      (∃ s, a = PyVal.str s ∧ b = PyVal.str s) ∨
      (∃ x, qv a = some x ∧ qv b = some x) := by
  cases a <;> cases b <;>
    simp [pyEq, qv, decide_eq_true_eq, eq_comm]

theorem pyEq_refl (a : PyVal) : pyEq a a = true := by
  cases a <;> simp [pyEq]

theorem pyEq_symm {a b : PyVal} (h : pyEq a b = true) : pyEq b a = true := by
  rw [pyEq_iff] at h ⊢
  rcases h with ⟨h1, h2⟩ | ⟨s, h1, h2⟩ | ⟨x, h1, h2⟩
  · exact Or.inl ⟨h2, h1⟩
  · exact Or.inr (Or.inl ⟨s, h2, h1⟩)
  · exact Or.inr (Or.inr ⟨x, h2, h1⟩)

theorem pyEq_trans {a b c : PyVal} (h1 : pyEq a b = true)
    (h2 : pyEq b c = true) : pyEq a c = true := by
  rw [pyEq_iff] at h1 h2 ⊢
  rcases h1 with ⟨g1, g2⟩ | ⟨s, g1, g2⟩ | ⟨x, g1, g2⟩
  · subst g2
    rcases h2 with ⟨_, k2⟩ | ⟨t, k1, _⟩ | ⟨y, k1, _⟩
    · exact Or.inl ⟨g1, k2⟩
    · exact absurd k1 (by simp)
    · exact absurd k1 (by simp [qv])
  · subst g2
    rcases h2 with ⟨k1, _⟩ | ⟨t, k1, k2⟩ | ⟨y, k1, _⟩
    · exact absurd k1 (by simp)
    · rw [PyVal.str.injEq] at k1
      exact Or.inr (Or.inl ⟨s, g1, k1 ▸ k2⟩)
    · exact absurd k1 (by simp [qv])
  · rcases h2 with ⟨k1, _⟩ | ⟨t, k1, _⟩ | ⟨y, k1, k2⟩
    · subst k1
      exact absurd g2 (by simp [qv])
    · subst k1
      exact absurd g2 (by simp [qv])
    · rw [g2] at k1
      injection k1 with hxy
      exact Or.inr (Or.inr ⟨x, g1, hxy ▸ k2⟩)

theorem pyEq_str_iff {s : String} {b : PyVal} :
    pyEq (PyVal.str s) b = true ↔ b = PyVal.str s := by
  cases b <;> simp [pyEq, decide_eq_true_eq, eq_comm]

/-- ASCII whitespace stripped by Python's default `str.strip()`. -/
def pySpace (c : Char) : Bool :=
  c = ' ' || c = '\t' || c = '\n' || c = '\r' || c = '\x0B' || c = '\x0C'

/-- Python `str.strip()` on the character list: drop whitespace from both ends. -/
def stripChars (l : List Char) : List Char :=
  ((l.dropWhile pySpace).reverse.dropWhile pySpace).reverse

def pyStrip (s : String) : String := String.mk (stripChars s.data)

theorem dropWhile_head_false {p : Char → Bool} :
    ∀ (l : List Char) (a : Char), (l.dropWhile p).head? = some a → p a = false := by
  intro l
  induction l with
  | nil => intro a h; simp [List.dropWhile] at h
  | cons x xs ih =>
    intro a h
    by_cases hx : p x = true
    · rw [List.dropWhile_cons_of_pos hx] at h
      exact ih a h
    · rw [List.dropWhile_cons_of_neg hx] at h
      simp at h
      simp [← h]
      simpa using hx

theorem dropWhile_of_head_false {p : Char → Bool} (l : List Char)
    (h : ∀ a, l.head? = some a → p a = false) : l.dropWhile p = l := by
  cases l with
  | nil => rfl
  | cons x xs =>
    have := h x rfl
    simp [List.dropWhile, this]

theorem getLast?_dropWhile {p : Char → Bool} :
    ∀ (l : List Char), l.dropWhile p ≠ [] → (l.dropWhile p).getLast? = l.getLast? := by
  intro l
  induction l with
  | nil => intro h; simp [List.dropWhile] at h
  | cons x xs ih =>
    intro h
    by_cases hx : p x = true
    · rw [List.dropWhile_cons_of_pos hx] at h ⊢
      rw [ih h]
      cases xs with
      | nil => simp [List.dropWhile] at h
      | cons y ys => simp [List.getLast?_cons_cons]
    · rw [List.dropWhile_cons_of_neg hx]

theorem stripChars_idem (l : List Char) : stripChars (stripChars l) = stripChars l := by
  unfold stripChars
  set A := l.dropWhile pySpace with hA
  set B := (A.reverse).dropWhile pySpace with hB
  by_cases hBnil : B = []
  · simp [hBnil, List.dropWhile]
  · have hArev : A.reverse ≠ [] := by
      intro hc
      rw [hc] at hB
      simp [List.dropWhile] at hB
      exact hBnil hB
    have hAnil : A ≠ [] := fun hc => hArev (by simp [hc])
    -- head of B.reverse is the last element of B, which is the last element
    -- of A.reverse, i.e. the head of A, and that is not whitespace.
    have hheadA : ∀ a, A.head? = some a → pySpace a = false := by
      intro a ha; exact dropWhile_head_false l a (hA ▸ ha)
    have hlastB : B.getLast? = A.head? := by
      rw [getLast?_dropWhile A.reverse hBnil, List.getLast?_reverse]
    have hheadBrev : ∀ a, B.reverse.head? = some a → pySpace a = false := by
      intro a ha
      rw [List.head?_reverse, hlastB] at ha
      exact hheadA a ha
    rw [dropWhile_of_head_false B.reverse hheadBrev, List.reverse_reverse]
    have hheadB : ∀ a, B.head? = some a → pySpace a = false := by
      intro a ha; exact dropWhile_head_false A.reverse a (hB ▸ ha)
    rw [dropWhile_of_head_false B hheadB]

theorem pyStrip_idem (s : String) : pyStrip (pyStrip s) = pyStrip s := by
  simp [pyStrip, stripChars_idem]

/-- One decimal digit as a character. -/
def digitChar (n : ℕ) : Char := Char.ofNat (48 + n)

theorem digitChar_isDigit {n : ℕ} (h : n < 10) : (digitChar n).isDigit = true := by
  interval_cases n <;> decide

/-- Decimal digits of a natural number, most significant first (fuel-based
so that the kernel can evaluate it). -/
def natDigitsAux : ℕ → ℕ → List Char
  | 0, _ => []
  | fuel + 1, n =>
    if n < 10 then [digitChar n]
    else natDigitsAux fuel (n / 10) ++ [digitChar (n % 10)]

def natDigits (n : ℕ) : List Char := natDigitsAux (n + 1) n

theorem natDigitsAux_all_digit :
    ∀ (fuel n : ℕ), ∀ c ∈ natDigitsAux fuel n, c.isDigit = true := by
  intro fuel
  induction fuel with
  | zero => intro n c hc; simp [natDigitsAux] at hc
  | succ f ih =>
    intro n c hc
    by_cases h : n < 10
    · simp [natDigitsAux, h] at hc
      exact hc ▸ digitChar_isDigit h
    · simp [natDigitsAux, h] at hc
      rcases hc with hc | hc
      · exact ih _ c hc
      · exact hc ▸ digitChar_isDigit (Nat.mod_lt n (by norm_num))

theorem natDigits_all_digit (n : ℕ) : ∀ c ∈ natDigits n, c.isDigit = true :=
  natDigitsAux_all_digit (n + 1) n

theorem natDigits_ne_nil (n : ℕ) : natDigits n ≠ [] := by
  unfold natDigits natDigitsAux
  by_cases h : n < 10 <;> simp [h]

/-- Rendering of a Python int by `str()`. -/
def intChars (n : ℤ) : List Char :=
  (if n < 0 then ['-'] else []) ++ natDigits n.natAbs

/-- Scaled decimal rendering: the integer `m` with a decimal point placed
`k` digits from the right (`renderScaled 25 1 = "2.5"`), zero-padded so an
integer part is always present (`renderScaled 5 2 = "0.05"`). -/
def renderScaled (m : ℤ) (k : ℕ) : List Char :=
  let ds := natDigits m.natAbs
  let padded := List.replicate (k + 1 - ds.length) '0' ++ ds
  (if m < 0 then ['-'] else []) ++
    (padded.take (padded.length - k) ++ ['.'] ++ padded.drop (padded.length - k))

/-- Integer division truncating toward zero, as Python's `int(...)` on a
float: `num` divided by `den`. -/
def truncDiv (num : ℤ) (den : ℕ) : ℤ :=
  if 0 ≤ num then ((num.toNat / den : ℕ) : ℤ) else -(((-num).toNat / den : ℕ) : ℤ)

/-- Python `int(float)`: truncate a rational toward zero. -/
def ratTrunc (q : ℚ) : ℤ := truncDiv q.num q.den

/-- Rendering of a Python float by `str()`: minimal decimal rendering when the
denominator is a divisor of a power of ten (`2.5`, `0.05`, `2.0`), and a
17-digit truncated expansion otherwise (approximating the shortest
round-trip rendering of binary floats; exact on decimal data). -/
def floatChars (q : ℚ) : List Char :=
  match (List.range (q.den + 2)).find? (fun j => decide (1 ≤ j) && decide (q.den ∣ 10 ^ j)) with
  | some k => renderScaled (q.num * ((10 ^ k / q.den : ℕ) : ℤ)) k
  | Option.none => renderScaled (truncDiv (q.num * 10 ^ (17 : ℕ)) q.den) 17

/-- Python `str()` on our values. -/
def pyStr : PyVal → String
  | PyVal.none => "None"
  | PyVal.int n => String.mk (intChars n)
  | PyVal.float q => String.mk (floatChars q)
  | PyVal.str s => s

/-- Python `str(x).replace('.','').replace('-','').isdigit()`, the numeric-code
test used by `load_domain_mappings`. -/
def digitish (s : String) : Bool :=
  let l := s.data.filter (fun c => !(c == '.') && !(c == '-'))
  !l.isEmpty && l.all Char.isDigit

theorem isDigit_ne_dot {c : Char} (h : c.isDigit = true) : (c == '.') = false := by
  cases hbe : c == '.'
  · rfl
  · rw [beq_iff_eq] at hbe
    subst hbe
    exact absurd h (by decide)

theorem isDigit_ne_dash {c : Char} (h : c.isDigit = true) : (c == '-') = false := by
  cases hbe : c == '-'
  · rfl
  · rw [beq_iff_eq] at hbe
    subst hbe
    exact absurd h (by decide)

theorem filter_eq_self_of_digits {l : List Char} (hl : ∀ c ∈ l, c.isDigit = true) :
    l.filter (fun c => !(c == '.') && !(c == '-')) = l := by
  apply List.filter_eq_self.2
  intro c hc
  simp [isDigit_ne_dot (hl c hc), isDigit_ne_dash (hl c hc)]

theorem digitish_append_of_digits {sign : List Char} {l : List Char}
    (hsign : sign.filter (fun c => !(c == '.') && !(c == '-')) = [])
    (hl : (l.filter (fun c => !(c == '.') && !(c == '-'))) ≠ [] ∧
          ∀ c ∈ l.filter (fun c => !(c == '.') && !(c == '-')), c.isDigit = true) :
    digitish (String.mk (sign ++ l)) = true := by
  unfold digitish
  simp only [List.filter_append, hsign, List.nil_append]
  rcases hl with ⟨h1, h2⟩
  rw [Bool.and_eq_true]
  constructor
  · have hie : (l.filter (fun c => !(c == '.') && !(c == '-'))).isEmpty = false := by
      cases hie : (l.filter (fun c => !(c == '.') && !(c == '-'))).isEmpty
      · rfl
      · exact absurd (List.isEmpty_iff.1 hie) h1
    rw [hie]
    rfl
  · rw [List.all_eq_true]
    exact h2

theorem digitish_renderScaled (m : ℤ) (k : ℕ) :
    digitish (String.mk (renderScaled m k)) = true := by
  unfold renderScaled
  set ds := natDigits m.natAbs with hds
  set padded := List.replicate (k + 1 - ds.length) '0' ++ ds with hpadded
  have hpaddig : ∀ c ∈ padded, c.isDigit = true := by
    intro c hc
    rcases List.mem_append.1 hc with hc | hc
    · rw [List.eq_of_mem_replicate hc]; decide
    · exact natDigits_all_digit _ c hc
  have hpadne : padded ≠ [] := by
    intro hc
    exact natDigits_ne_nil m.natAbs (List.append_eq_nil.1 (hpadded ▸ hc)).2
  apply digitish_append_of_digits
  · by_cases hm : m < 0 <;> simp [hm, List.filter]
  · have htd : ∀ c ∈ padded.take (padded.length - k) ++ padded.drop (padded.length - k),
        c.isDigit = true := by
      intro c hc
      rw [List.take_append_drop] at hc
      exact hpaddig c hc
    have hmid : (padded.take (padded.length - k) ++ ['.'] ++ padded.drop (padded.length - k)).filter
        (fun c => !(c == '.') && !(c == '-')) =
        padded.take (padded.length - k) ++ padded.drop (padded.length - k) := by
      simp only [List.filter_append]
      rw [filter_eq_self_of_digits fun c hc => htd c (List.mem_append_left _ hc),
        filter_eq_self_of_digits fun c hc => htd c (List.mem_append_right _ hc)]
      simp [List.filter]
    rw [hmid]
    constructor
    · rw [List.take_append_drop]
      exact hpadne
    · intro c hc
      rw [List.take_append_drop] at hc
      exact hpaddig c hc

theorem digitish_int (n : ℤ) : digitish (pyStr (PyVal.int n)) = true := by
  show digitish (String.mk (intChars n)) = true
  unfold intChars
  apply digitish_append_of_digits
  · by_cases hm : n < 0 <;> simp [hm, List.filter]
  · rw [filter_eq_self_of_digits (natDigits_all_digit n.natAbs)]
    exact ⟨natDigits_ne_nil n.natAbs, natDigits_all_digit n.natAbs⟩

theorem digitish_float (q : ℚ) : digitish (pyStr (PyVal.float q)) = true := by
  show digitish (String.mk (floatChars q)) = true
  unfold floatChars
  cases hfind : (List.range (q.den + 2)).find? (fun j => decide (1 ≤ j) && decide (q.den ∣ 10 ^ j)) with
  | none => exact digitish_renderScaled _ _
  | some k => exact digitish_renderScaled _ _

/-- Decimal value of a digit string. -/
def digitsVal (l : List Char) : ℕ := l.foldl (fun acc c => 10 * acc + (c.toNat - 48)) 0

/-- Python `float(s)`: optional sign, digits with at most one decimal
point, surrounding whitespace tolerated; `Option.none` models the
`ValueError` branch caught by the callers. -/
def parseFloat (s : String) : Option ℚ :=
  let l0 := stripChars s.data
  let sgl : ℤ × List Char :=
    match l0 with
    | '-' :: t => (-1, t)
    | '+' :: t => (1, t)
    | _ => (1, l0)
  let intPart := sgl.2.takeWhile (fun c => !(c == '.'))
  let rest := sgl.2.dropWhile (fun c => !(c == '.'))
  match rest with
  | [] =>
    if intPart ≠ [] ∧ intPart.all Char.isDigit then
      some (mkRat (sgl.1 * (digitsVal intPart : ℤ)) 1)
    else Option.none
  | _ :: frac =>
    if (intPart ++ frac) ≠ [] ∧ intPart.all Char.isDigit ∧ frac.all Char.isDigit then
      some (mkRat (sgl.1 * ((digitsVal intPart * 10 ^ frac.length + digitsVal frac : ℕ) : ℤ))
        (10 ^ frac.length))
    else Option.none

/-!
Code maps (`load_domain_mappings`, BDgpkg2shape.py 704-791 and
script/BDgpkg2shapePRO.py 779-859)

A Python dict keyed by heterogeneous code representations is an
association list; insertion overwrites the value of every `pyEq`-equal
key (Python dicts hold one slot per equality class), lookup returns the
first `pyEq`-matching entry.
-/

/-- A code-to-description map, in insertion order. -/
abbrev CodeMap := List (PyVal × String)

/-- Insertion `code_map[key] = desc`: overwrite the slot of `key`'s equality class,
or append a fresh entry. -/
def mapInsert (m : CodeMap) (k : PyVal) (v : String) : CodeMap :=
  if m.any (fun e => pyEq e.1 k) then
    m.map (fun e => if pyEq e.1 k then (e.1, v) else e)
  else m ++ [(k, v)]

/-- Lookup `key in code_map` and `code_map[key]`. -/
def mapFind (m : CodeMap) (k : PyVal) : Option String :=
  (m.find? (fun e => pyEq k e.1)).map (fun e => e.2)

theorem mem_mapInsert {m : CodeMap} {k : PyVal} {v : String} :
    ∀ e ∈ mapInsert m k v, (pyEq e.1 k = true ∧ e.2 = v) ∨ e ∈ m := by
  intro e he
  unfold mapInsert at he
  by_cases hany : m.any (fun e => pyEq e.1 k) = true
  · rw [if_pos hany] at he
    rcases List.mem_map.1 he with ⟨p, hp, hpe⟩
    by_cases hpk : pyEq p.1 k = true
    · rw [if_pos hpk] at hpe
      exact Or.inl ⟨by rw [← hpe]; exact hpk, by rw [← hpe]⟩
    · rw [if_neg hpk] at hpe
      exact Or.inr (hpe ▸ hp)
  · rw [if_neg hany] at he
    rcases List.mem_append.1 he with he | he
    · exact Or.inr he
    · rcases List.mem_singleton.1 he with rfl
      exact Or.inl ⟨pyEq_refl k, rfl⟩

theorem mapInsert_keeps {m : CodeMap} {k : PyVal} {v : String} {k' : PyVal}
    (h : ∃ e ∈ m, pyEq e.1 k' = true) :
    ∃ e ∈ mapInsert m k v, pyEq e.1 k' = true := by
  rcases h with ⟨e, he, hek⟩
  unfold mapInsert
  by_cases hany : m.any (fun e => pyEq e.1 k) = true
  · rw [if_pos hany]
    refine ⟨if pyEq e.1 k then (e.1, v) else e, List.mem_map.2 ⟨e, he, rfl⟩, ?_⟩
    by_cases hek2 : pyEq e.1 k = true
    · rw [if_pos hek2]
      exact hek
    · rw [if_neg hek2]
      exact hek
  · rw [if_neg hany]
    exact ⟨e, List.mem_append_left _ he, hek⟩

theorem mapInsert_self {m : CodeMap} {k : PyVal} {v : String} :
    ∃ e ∈ mapInsert m k v, pyEq e.1 k = true := by
  unfold mapInsert
  by_cases hany : m.any (fun e => pyEq e.1 k) = true
  · rw [if_pos hany]
    rcases List.any_eq_true.1 hany with ⟨e, he, hek⟩
    refine ⟨if pyEq e.1 k then (e.1, v) else e, List.mem_map.2 ⟨e, he, rfl⟩, ?_⟩
    rw [if_pos hek]
    exact hek
  · rw [if_neg hany]
    exact ⟨(k, v), List.mem_append_right _ (List.mem_singleton.2 rfl), pyEq_refl k⟩

/-- The inner `for key in keys_to_map: code_map[key] = desc_clean` loop. -/
def insertKeys (m : CodeMap) (ks : List PyVal) (v : String) : CodeMap :=
  ks.foldl (fun acc k => mapInsert acc k v) m

theorem mem_insertKeys {ks : List PyVal} :
    ∀ {m : CodeMap} {v : String}, ∀ e ∈ insertKeys m ks v,
      (∃ k ∈ ks, pyEq e.1 k = true ∧ e.2 = v) ∨ e ∈ m := by
  induction ks with
  | nil => intro m v e he; exact Or.inr he
  | cons k ks ih =>
    intro m v e he
    rcases ih e he with ⟨k', hk', hke, hv⟩ | he2
    · exact Or.inl ⟨k', List.mem_cons_of_mem _ hk', hke, hv⟩
    · rcases mem_mapInsert e he2 with ⟨hke, hv⟩ | he3
      · exact Or.inl ⟨k, List.mem_cons_self _ _, hke, hv⟩
      · exact Or.inr he3

theorem insertKeys_keeps {ks : List PyVal} :
    ∀ {m : CodeMap} {v : String} {k' : PyVal},
      (∃ e ∈ m, pyEq e.1 k' = true) →
      ∃ e ∈ insertKeys m ks v, pyEq e.1 k' = true := by
  induction ks with
  | nil => intro m v k' h; exact h
  | cons k ks ih =>
    intro m v k' h
    exact ih (mapInsert_keeps h)

theorem insertKeys_covers {ks : List PyVal} :
    ∀ {m : CodeMap} {v : String}, ∀ k ∈ ks, ∃ e ∈ insertKeys m ks v, pyEq e.1 k = true := by
  induction ks with
  | nil => intro m v k h; exact absurd h (List.not_mem_nil k)
  | cons k0 ks ih =>
    intro m v k h
    rcases List.mem_cons.1 h with rfl | h
    · show ∃ e ∈ insertKeys (mapInsert m k v) ks v, pyEq e.1 k = true
      exact insertKeys_keeps mapInsert_self
    · exact ih k h

/-- One raw row of a domain table: the value of the code field and the
value of the description field. -/
abbrev DomainRow := PyVal × PyVal

/-- Guard `code_val is not None and desc_val is not None`. -/
def rowValid (r : DomainRow) : Bool :=
  !(r.1 == PyVal.none) && !(r.2 == PyVal.none)

/-- Description cleaning `desc_clean = str(desc_val).strip()`. -/
def trimDesc (d : PyVal) : String := pyStrip (pyStr d)

/-- The `keys_to_map` representations inserted for one code value:
always the trimmed string form; when `str(code)` passes the digit test,
additionally the raw value plus its parsed float and truncated int forms
(or just the raw value when `float(str(code))` raises). -/
def rowKeys (c : PyVal) : List PyVal :=
  PyVal.str (pyStrip (pyStr c)) ::
    (if digitish (pyStr c) then
      match parseFloat (pyStr c) with
      | some q => [c, PyVal.float q, PyVal.int (ratTrunc q)]
      | Option.none => [c]
    else [])

/-- The row loop of `load_domain_mappings`: skip rows with a null code or
description, otherwise map every representation in `keys_to_map` to the
trimmed description. -/
def stepRow (m : CodeMap) (r : DomainRow) : CodeMap :=
  if rowValid r then insertKeys m (rowKeys r.1) (trimDesc r.2) else m

/-- Row-loop result of `load_domain_mappings`: build the code map
from the cursor rows. -/
def loadDomainRows (rows : List DomainRow) : CodeMap :=
  rows.foldl stepRow []

/-- Spec invariant (a): no two rows of the table give different (trimmed)
descriptions to `pyEq`-overlapping key representations — "a CodeMap never
holds two different descriptions for the same logical code". -/
def consistentRows (rows : List DomainRow) : Bool :=
  rows.all fun r1 => rows.all fun r2 =>
    !(rowValid r1) || !(rowValid r2) ||
      (rowKeys r1.1).all fun k1 => (rowKeys r2.1).all fun k2 =>
        !(pyEq k1 k2) || decide (trimDesc r1.2 = trimDesc r2.2)

/-- Every entry of the built map derives from some valid row: its key is
`pyEq`-equal to one of that row's representations and its value is that
row's trimmed description. -/
def entryFromRows (rows : List DomainRow) (e : PyVal × String) : Prop :=
  ∃ r ∈ rows, rowValid r = true ∧ ∃ k ∈ rowKeys r.1, pyEq e.1 k = true ∧ e.2 = trimDesc r.2

theorem stepRow_entries {m : CodeMap} {r : DomainRow} :
    ∀ e ∈ stepRow m r,
      (rowValid r = true ∧ ∃ k ∈ rowKeys r.1, pyEq e.1 k = true ∧ e.2 = trimDesc r.2) ∨ e ∈ m := by
  intro e he
  unfold stepRow at he
  by_cases hv : rowValid r = true
  · rw [if_pos hv] at he
    rcases mem_insertKeys e he with ⟨k, hk, hke, hv2⟩ | he2
    · exact Or.inl ⟨hv, k, hk, hke, hv2⟩
    · exact Or.inr he2
  · rw [if_neg hv] at he
    exact Or.inr he

theorem foldl_stepRow_entries {rows : List DomainRow} :
    ∀ {m : CodeMap}, ∀ e ∈ rows.foldl stepRow m,
      entryFromRows rows e ∨ e ∈ m := by
  induction rows with
  | nil => intro m e he; exact Or.inr he
  | cons r rows ih =>
    intro m e he
    rcases ih e he with ⟨r2, hr2, hv, hk⟩ | he2
    · exact Or.inl ⟨r2, List.mem_cons_of_mem _ hr2, hv, hk⟩
    · rcases stepRow_entries e he2 with ⟨hv, hk⟩ | he3
      · exact Or.inl ⟨r, List.mem_cons_self _ _, hv, hk⟩
      · exact Or.inr he3

theorem loadDomainRows_entries {rows : List DomainRow} :
    ∀ e ∈ loadDomainRows rows, entryFromRows rows e := by
  intro e he
  rcases foldl_stepRow_entries e he with h | h
  · exact h
  · exact absurd h (List.not_mem_nil e)

theorem foldl_stepRow_keeps {rows : List DomainRow} {k' : PyVal} :
    ∀ {m : CodeMap}, (∃ e ∈ m, pyEq e.1 k' = true) →
      ∃ e ∈ rows.foldl stepRow m, pyEq e.1 k' = true := by
  induction rows with
  | nil => intro m h; exact h
  | cons r rows ih =>
    intro m h
    apply ih
    unfold stepRow
    by_cases hv : rowValid r = true
    · rw [if_pos hv]
      exact insertKeys_keeps h
    · rw [if_neg hv]
      exact h

theorem foldl_stepRow_covers {rows : List DomainRow} {r : DomainRow} {k : PyVal}
    (hr : r ∈ rows) (hv : rowValid r = true) (hk : k ∈ rowKeys r.1) :
    ∀ {m : CodeMap}, ∃ e ∈ rows.foldl stepRow m, pyEq e.1 k = true := by
  induction rows with
  | nil => exact absurd hr (List.not_mem_nil r)
  | cons r0 rows ih =>
    intro m
    rcases List.mem_cons.1 hr with rfl | hr2
    · show ∃ e ∈ rows.foldl stepRow (stepRow m r), pyEq e.1 k = true
      apply foldl_stepRow_keeps
      unfold stepRow
      rw [if_pos hv]
      exact insertKeys_covers k hk
    · exact ih hr2

theorem loadDomainRows_covers {rows : List DomainRow} {r : DomainRow}
    (hr : r ∈ rows) (hv : rowValid r = true) :
    ∀ k ∈ rowKeys r.1, ∃ e ∈ loadDomainRows rows, pyEq e.1 k = true := by
  intro k hk
  exact foldl_stepRow_covers hr hv hk

theorem consistentRows_apply {rows : List DomainRow} (hc : consistentRows rows = true)
    {r1 r2 : DomainRow} (h1 : r1 ∈ rows) (h2 : r2 ∈ rows)
    (hv1 : rowValid r1 = true) (hv2 : rowValid r2 = true)
    {k1 k2 : PyVal} (hk1 : k1 ∈ rowKeys r1.1) (hk2 : k2 ∈ rowKeys r2.1)
    (he : pyEq k1 k2 = true) : trimDesc r1.2 = trimDesc r2.2 := by
  unfold consistentRows at hc
  have ha := List.all_eq_true.1 (List.all_eq_true.1 hc r1 h1) r2 h2
  rw [hv1, hv2] at ha
  simp only [Bool.not_true, Bool.false_or] at ha
  have hb := List.all_eq_true.1 (List.all_eq_true.1 ha k1 hk1) k2 hk2
  rw [he] at hb
  simp only [Bool.not_true, Bool.false_or, decide_eq_true_eq] at hb
  exact hb

/-- Looking up any `pyEq`-equivalent of a representation of a valid row of
a consistent table returns that row's trimmed description. -/
theorem loadDomainRows_find {rows : List DomainRow} (hc : consistentRows rows = true)
    {r : DomainRow} (hr : r ∈ rows) (hv : rowValid r = true)
    {k : PyVal} (hk : k ∈ rowKeys r.1) {p : PyVal} (hp : pyEq p k = true) :
    mapFind (loadDomainRows rows) p = some (trimDesc r.2) := by
  obtain ⟨e0, he0, hek0⟩ := loadDomainRows_covers hr hv k hk
  have hfind : (loadDomainRows rows).find? (fun e => pyEq p e.1) ≠ Option.none := by
    intro hnone
    exact absurd (pyEq_trans hp (pyEq_symm hek0))
      (by simpa using List.find?_eq_none.1 hnone e0 he0)
  obtain ⟨e, hfe⟩ := Option.ne_none_iff_exists'.1 hfind
  have hpe : pyEq p e.1 = true := by
    have hx := List.find?_some hfe
    simpa using hx
  have hem : e ∈ loadDomainRows rows := List.mem_of_find?_eq_some hfe
  obtain ⟨r2, hr2, hv2, k2, hk2, hek2, hval⟩ := loadDomainRows_entries e hem
  have hkk2 : pyEq k k2 = true := pyEq_trans (pyEq_trans (pyEq_symm hp) hpe) hek2
  have hdesc := consistentRows_apply hc hr hr2 hv hv2 hk hk2 hkk2
  unfold mapFind
  rw [hfe]
  simp [hval, hdesc]

/-!
`apply_domain_mapping` (BDgpkg2shape.py 793-852)

Per row the code probes the map with the raw source value, then its
trimmed string form, then `float(str_val)` and `int(float_val)`,
returning the first hit, and writes the empty string when every probe
misses or the source value is null.
-/

/-- The probe representations, in the order tried by
`apply_domain_mapping`. -/
def probeList (src : PyVal) : List PyVal :=
  [src, PyVal.str (pyStrip (pyStr src))] ++
    (match parseFloat (pyStrip (pyStr src)) with
     | some q => [PyVal.float q, PyVal.int (ratTrunc q)]
     | Option.none => [])

/-- The per-row mapped value computed by `apply_domain_mapping`. -/
def domainLookupRow (m : CodeMap) (src : PyVal) : String :=
  if src == PyVal.none then ""
  else
    match mapFind m src with
    | some v => v
    | Option.none =>
      match mapFind m (PyVal.str (pyStrip (pyStr src))) with
      | some v => v
      | Option.none =>
        match parseFloat (pyStrip (pyStr src)) with
        | Option.none => ""
        | some q =>
          match mapFind m (PyVal.float q) with
          | some v => v
          | Option.none =>
            match mapFind m (PyVal.int (ratTrunc q)) with
            | some v => v
            | Option.none => ""

/-- The nested probe conditionals are exactly "first hit in
`probeList`, else empty string". -/
theorem domainLookupRow_eq_probes (m : CodeMap) (src : PyVal) (h : src ≠ PyVal.none) :
    domainLookupRow m src = ((probeList src).findSome? (fun p => mapFind m p)).getD "" := by
  have hbeq : (src == PyVal.none) = false := by
    cases hb : src == PyVal.none
    · rfl
    · exact absurd (beq_iff_eq.mp hb) h
  unfold domainLookupRow probeList
  rw [hbeq]
  simp only [Bool.false_eq_true, if_false, List.cons_append, List.nil_append,
    List.findSome?_cons]
  cases mapFind m src with
  | some v => rfl
  | none =>
    cases mapFind m (PyVal.str (pyStrip (pyStr src))) with
    | some v => rfl
    | none =>
      cases parseFloat (pyStrip (pyStr src)) with
      | none => rfl
      | some q =>
        simp only [List.findSome?_cons]
        cases mapFind m (PyVal.float q) with
        | some v => rfl
        | none =>
          cases mapFind m (PyVal.int (ratTrunc q)) with
          | some v => rfl
          | none => rfl

/-- The representations under which claim C1 requires a row's code to be
found: the raw value, its trimmed string form and — when the code is
numeric in the sense of the loader's digit test — its parsed float and
truncated int forms. -/
def claimReps (c : PyVal) : List PyVal :=
  [c, PyVal.str (pyStrip (pyStr c))] ++
    (if digitish (pyStr c) then
      match parseFloat (pyStr c) with
      | some q => [PyVal.float q, PyVal.int (ratTrunc q)]
      | Option.none => []
    else [])

theorem strKey_mem_rowKeys (c : PyVal) : PyVal.str (pyStrip (pyStr c)) ∈ rowKeys c := by
  unfold rowKeys
  exact List.mem_cons_self _ _

theorem raw_mem_rowKeys_of_digitish {c : PyVal} (h : digitish (pyStr c) = true) :
    c ∈ rowKeys c := by
  unfold rowKeys
  rw [if_pos h]
  cases parseFloat (pyStr c) with
  | some q => exact List.mem_cons_of_mem _ (List.mem_cons_self _ _)
  | none => exact List.mem_cons_of_mem _ (List.mem_cons_self _ _)

theorem float_mem_rowKeys {c : PyVal} {q : ℚ} (h : digitish (pyStr c) = true)
    (hq : parseFloat (pyStr c) = some q) : PyVal.float q ∈ rowKeys c := by
  unfold rowKeys
  rw [if_pos h, hq]
  simp

theorem int_mem_rowKeys {c : PyVal} {q : ℚ} (h : digitish (pyStr c) = true)
    (hq : parseFloat (pyStr c) = some q) : PyVal.int (ratTrunc q) ∈ rowKeys c := by
  unfold rowKeys
  rw [if_pos h, hq]
  simp

theorem beq_none_eq_false {a : PyVal} (h : a ≠ PyVal.none) : (a == PyVal.none) = false := by
  cases hb : a == PyVal.none
  · rfl
  · exact absurd (beq_iff_eq.mp hb) h

theorem domainLookupRow_probe1 {m : CodeMap} {src : PyVal} {v : String}
    (h : (src == PyVal.none) = false) (hf : mapFind m src = some v) :
    domainLookupRow m src = v := by
  unfold domainLookupRow
  rw [h, hf]
  simp

theorem domainLookupRow_probe2 {m : CodeMap} {src : PyVal} {v : String}
    (h : (src == PyVal.none) = false) (h1 : mapFind m src = Option.none)
    (hf : mapFind m (PyVal.str (pyStrip (pyStr src))) = some v) :
    domainLookupRow m src = v := by
  unfold domainLookupRow
  rw [h, h1, hf]
  simp

/-- No entry of a loaded map can be keyed by an untrimmed, non-numeric
string: trimmed-string keys are fixed by stripping, and raw keys are only
inserted when the digit test passes. -/
theorem mapFind_str_none {rows : List DomainRow} {t : String}
    (hstrip : pyStrip t ≠ t) (hdig : digitish t = false) :
    mapFind (loadDomainRows rows) (PyVal.str t) = Option.none := by
  cases hf : mapFind (loadDomainRows rows) (PyVal.str t) with
  | none => rfl
  | some v =>
    exfalso
    unfold mapFind at hf
    cases hfind : (loadDomainRows rows).find? (fun e => pyEq (PyVal.str t) e.1) with
    | none => rw [hfind] at hf; simp at hf
    | some e =>
      have hpe2 : pyEq (PyVal.str t) e.1 = true := by
        have hx := List.find?_some hfind
        simpa using hx
      have hem := List.mem_of_find?_eq_some hfind
      obtain ⟨r2, _, _, k2, hk2, hek2, _⟩ := loadDomainRows_entries e hem
      have he1 : e.1 = PyVal.str t := pyEq_str_iff.1 hpe2
      have hk2t : k2 = PyVal.str t := pyEq_str_iff.1 (he1 ▸ hek2)
      unfold rowKeys at hk2
      rcases List.mem_cons.1 hk2 with hhead | htail
      · rw [hk2t] at hhead
        have hts : t = pyStrip (pyStr r2.1) := by injection hhead
        apply hstrip
        rw [hts, pyStrip_idem]
      · by_cases hd2 : digitish (pyStr r2.1) = true
        · rw [if_pos hd2] at htail
          cases hp2 : parseFloat (pyStr r2.1) with
          | some q2 =>
            rw [hp2] at htail
            rcases List.mem_cons.1 htail with hraw | htail2
            · rw [hk2t] at hraw
              rw [← hraw] at hd2
              exact absurd hd2 (by show ¬digitish t = true; rw [hdig]; simp)
            · rcases List.mem_cons.1 htail2 with hfl | htail3
              · rw [hk2t] at hfl; cases hfl
              · rcases List.mem_singleton.1 htail3 with hint
                rw [hk2t] at hint; cases hint
          | none =>
            rw [hp2] at htail
            rcases List.mem_singleton.1 htail with hraw
            rw [hk2t] at hraw
            rw [← hraw] at hd2
            exact absurd hd2 (by show ¬digitish t = true; rw [hdig]; simp)
        · rw [if_neg hd2] at htail
          exact absurd htail (List.not_mem_nil k2)

/-- Core of claim C1: on a consistent table, looking up any claimed
representation of a valid row's code returns that row's trimmed
description. -/
theorem lookup_claimRep {rows : List DomainRow} (hc : consistentRows rows = true)
    {r : DomainRow} (hr : r ∈ rows) (hv : rowValid r = true) :
    ∀ rep ∈ claimReps r.1, domainLookupRow (loadDomainRows rows) rep = trimDesc r.2 := by
  obtain ⟨c, d⟩ := r
  intro rep hrep
  have hcne : c ≠ PyVal.none := by
    intro hceq
    unfold rowValid at hv
    rw [Bool.and_eq_true] at hv
    rw [hceq] at hv
    simp at hv
  have hcnone : (c == PyVal.none) = false := beq_none_eq_false hcne
  unfold claimReps at hrep
  rcases List.mem_append.1 hrep with hrep | hrep
  · rcases List.mem_cons.1 hrep with hrc | hrep
    · -- the raw value itself
      rw [hrc]
      show domainLookupRow (loadDomainRows rows) c = trimDesc d
      by_cases hd : digitish (pyStr c) = true
      · have hmem : c ∈ rowKeys c := raw_mem_rowKeys_of_digitish hd
        exact domainLookupRow_probe1 hcnone
          (loadDomainRows_find hc hr hv hmem (pyEq_refl c))
      · cases c with
        | none => exact absurd rfl hcne
        | int n => exact absurd (digitish_int n) hd
        | float q => exact absurd (digitish_float q) hd
        | str t =>
          by_cases hst : pyStrip t = t
          · have hpe : pyEq (PyVal.str t) (PyVal.str (pyStrip (pyStr (PyVal.str t)))) = true := by
              show pyEq (PyVal.str t) (PyVal.str (pyStrip t)) = true
              rw [hst]
              exact pyEq_refl _
            exact domainLookupRow_probe1 hcnone
              (loadDomainRows_find hc hr hv (strKey_mem_rowKeys (PyVal.str t)) hpe)
          · have hdig : digitish t = false := by
              cases hdt : digitish t
              · rfl
              · exact absurd (show digitish (pyStr (PyVal.str t)) = true from hdt) hd
            have h1 : mapFind (loadDomainRows rows) (PyVal.str t) = Option.none :=
              mapFind_str_none hst hdig
            exact domainLookupRow_probe2 hcnone h1
              (loadDomainRows_find hc hr hv (strKey_mem_rowKeys (PyVal.str t)) (pyEq_refl _))
    · have hrs := List.mem_singleton.1 hrep
      subst hrs
      exact domainLookupRow_probe1 (by rw [beq_eq_false_iff_ne]; intro hx; cases hx)
        (loadDomainRows_find hc hr hv (strKey_mem_rowKeys c) (pyEq_refl _))
  · by_cases hd : digitish (pyStr c) = true
    · rw [if_pos hd] at hrep
      cases hpq : parseFloat (pyStr c) with
      | none => rw [hpq] at hrep; simp at hrep
      | some q =>
        rw [hpq] at hrep
        rcases List.mem_cons.1 hrep with hrf | hrep
        · subst hrf
          exact domainLookupRow_probe1 (by rw [beq_eq_false_iff_ne]; intro hx; cases hx)
            (loadDomainRows_find hc hr hv (float_mem_rowKeys hd hpq) (pyEq_refl _))
        · have hri := List.mem_singleton.1 hrep
          subst hri
          exact domainLookupRow_probe1 (by rw [beq_eq_false_iff_ne]; intro hx; cases hx)
            (loadDomainRows_find hc hr hv (int_mem_rowKeys hd hpq) (pyEq_refl _))
    · rw [if_neg hd] at hrep
      exact absurd hrep (List.not_mem_nil rep)

/-!
Shapefile model

`arcpy.ListFields` yields names and types; an update cursor passes over
rows.  A row is an association list from field name to value; system
fields (`FID` of type OID, `Shape` of type Geometry) appear in the field
list, not in cursor rows.
-/

inductive FieldType where
  | oid : FieldType
  | geometry : FieldType
  | text : FieldType
  | number : FieldType
deriving DecidableEq, Repr

structure FieldInfo where
  name : String
  ftype : FieldType
deriving DecidableEq, Repr

abbrev ShapeRow := List (String × PyVal)

structure Shapefile where
  fields : List FieldInfo
  rows : List ShapeRow
deriving DecidableEq, Repr

/-- ASCII `str.upper()` (kernel-evaluable). -/
def upChar (c : Char) : Char := if c.isLower then Char.ofNat (c.toNat - 32) else c

def upStr (s : String) : String := String.mk (s.data.map upChar)

def rowGet (r : ShapeRow) (f : String) : PyVal :=
  ((r.find? (fun p => p.1 == f)).map (fun p => p.2)).getD PyVal.none

def rowSet (r : ShapeRow) (f : String) (v : PyVal) : ShapeRow :=
  if r.any (fun p => p.1 == f) then r.map (fun p => if p.1 == f then (p.1, v) else p)
  else r ++ [(f, v)]

/-- Application step `apply_domain_mapping` (BDgpkg2shape.py 793-852): bail out when the
code map is empty; otherwise create the target text field if its
upper-cased name is absent and rewrite every row's target value with the
probe-chain lookup of the source value. -/
def applyDomainMapping (shp : Shapefile) (fieldName sourceField : String) (m : CodeMap) :
    Shapefile :=
  if m.isEmpty then shp
  else
    { fields :=
        if (shp.fields.map (fun f => upStr f.name)).contains (upStr fieldName) then shp.fields
        else shp.fields ++ [⟨fieldName, FieldType.text⟩],
      rows := shp.rows.map (fun r =>
        rowSet r fieldName (PyVal.str (domainLookupRow m (rowGet r sourceField)))) }

/-- Claim C1: for every domain table and every row `(code, description)`
with non-null code and description, on a table satisfying the CodeMap
consistency invariant the domain mapping writes that row's trimmed
description for a source value equal to the code under any claimed
representation (raw value, trimmed string, and — when numeric — parsed
float and truncated int); the probe chain is exactly first-hit over
[raw, trimmed string, parsed float, parsed int] with empty-string
fallback, so a source value matching no stored representation yields the
empty string; and the application step writes the looked-up text into the
target field of every row. -/
theorem c1_domain_mapping_roundtrip :
    (∀ rows : List DomainRow, consistentRows rows = true →
       ∀ r ∈ rows, rowValid r = true →
         ∀ rep ∈ claimReps r.1,
           domainLookupRow (loadDomainRows rows) rep = trimDesc r.2) ∧
    (∀ (m : CodeMap) (src : PyVal), src ≠ PyVal.none →
       domainLookupRow m src = ((probeList src).findSome? (fun p => mapFind m p)).getD "") ∧
    (∀ (m : CodeMap) (src : PyVal),
       (∀ p ∈ probeList src, mapFind m p = Option.none) → domainLookupRow m src = "") ∧
    (∀ (shp : Shapefile) (fieldName sourceField : String) (m : CodeMap), m ≠ [] →
       (applyDomainMapping shp fieldName sourceField m).rows =
         shp.rows.map (fun r => rowSet r fieldName
           (PyVal.str (domainLookupRow m (rowGet r sourceField))))) := by
  refine ⟨?_, ?_, ?_, ?_⟩
  · intro rows hcons r hr hv rep hrep
    exact lookup_claimRep hcons hr hv rep hrep
  · intro m src h
    exact domainLookupRow_eq_probes m src h
  · intro m src hmiss
    by_cases hn : src = PyVal.none
    · subst hn
      unfold domainLookupRow
      simp
    · rw [domainLookupRow_eq_probes m src hn]
      have : (probeList src).findSome? (fun p => mapFind m p) = Option.none := by
        rw [List.findSome?_eq_none_iff]
        exact hmiss
      rw [this]
      rfl
  · intro shp fieldName sourceField m hm
    unfold applyDomainMapping
    cases m with
    | nil => exact absurd rfl hm
    | cons e m => rfl

/-- Witness for C1 at the one-row table `("1", " Alluvium ")`, probed with
the int form `1`. -/
theorem c1_domain_mapping_roundtrip_witness :
    consistentRows [(PyVal.str "1", PyVal.str " Alluvium ")] = true ∧
    domainLookupRow (loadDomainRows [(PyVal.str "1", PyVal.str " Alluvium ")])
      (PyVal.int 1) = "Alluvium" := by
  constructor
  · decide
  · have h := c1_domain_mapping_roundtrip.1 [(PyVal.str "1", PyVal.str " Alluvium ")]
      (by decide) (PyVal.str "1", PyVal.str " Alluvium ")
      (by decide) (by decide) (PyVal.int 1) (by decide)
    rw [h]
    decide

/-- Claim C9: an empty code map makes `apply_domain_mapping` a no-op: the
shapefile is returned unchanged — the target field is not created and no
row value is modified. -/
theorem c9_empty_codemap_noop :
    ∀ (shp : Shapefile) (fieldName sourceField : String),
      applyDomainMapping shp fieldName sourceField [] = shp := by
  intro shp fieldName sourceField
  rfl

/-!
`process_sommerso_field_optimized` (BDgpkg2shape.py 909-952) and the
`_som` helper of `openlibs/gpkg_pipeline.py` (261-268)

Per row: `sommerso_val in [1, "1", "1.0"]` writes `"SI"`,
`sommerso_val in [2, "2", "2.0"]` writes `"NO"`, anything else writes the
empty string. Python's `in` compares with `==`.
-/

/-- Python `x in [a, b, c]`. -/
def pyMem (v : PyVal) (l : List PyVal) : Bool := l.any (fun w => pyEq v w)

/-- The tri-state value written into `Sommerso_` for one row. -/
def sommersoNew (v : PyVal) : String :=
  if pyMem v [PyVal.int 1, PyVal.str "1", PyVal.str "1.0"] then "SI"
  else if pyMem v [PyVal.int 2, PyVal.str "2", PyVal.str "2.0"] then "NO"
  else ""

/-- The `_som` variant in `openlibs/gpkg_pipeline.py`:
`str(v) in ('1','1.0') or v == 1`, etc. -/
def somGpkg (v : PyVal) : String :=
  if pyStr v == "1" || pyStr v == "1.0" || pyEq v (PyVal.int 1) then "SI"
  else if pyStr v == "2" || pyStr v == "2.0" || pyEq v (PyVal.int 2) then "NO"
  else ""

theorem pyEq_int_cases {v : PyVal} {n : ℤ} (h : pyEq v (PyVal.int n) = true) :
    v = PyVal.int n ∨ v = PyVal.float (n : ℚ) := by
  cases v with
  | none => simp [pyEq] at h
  | str s => simp [pyEq] at h
  | int m =>
    simp [pyEq, decide_eq_true_eq] at h
    exact Or.inl (by rw [h])
  | float q =>
    simp [pyEq, decide_eq_true_eq] at h
    exact Or.inr (by rw [h])

/-- Claim C5: the Sommerso normalization maps a value equal (in Python's
sense) to one — the int 1, the float 1.0, the strings "1" and "1.0" — to
"SI", a value equal to two to "NO", and everything else, null included,
to the empty string. -/
theorem c5_sommerso_tristate :
    ∀ v : PyVal,
      ((pyEq v (PyVal.int 1) = true ∨ v = PyVal.str "1" ∨ v = PyVal.str "1.0") →
        sommersoNew v = "SI") ∧
      ((pyEq v (PyVal.int 2) = true ∨ v = PyVal.str "2" ∨ v = PyVal.str "2.0") →
        sommersoNew v = "NO") ∧
      ((¬(pyEq v (PyVal.int 1) = true ∨ v = PyVal.str "1" ∨ v = PyVal.str "1.0")) →
       (¬(pyEq v (PyVal.int 2) = true ∨ v = PyVal.str "2" ∨ v = PyVal.str "2.0")) →
        sommersoNew v = "") := by
  intro v
  have hone : pyMem v [PyVal.int 1, PyVal.str "1", PyVal.str "1.0"] = true ↔
      (pyEq v (PyVal.int 1) = true ∨ v = PyVal.str "1" ∨ v = PyVal.str "1.0") := by
    unfold pyMem
    rw [List.any_eq_true]
    constructor
    · rintro ⟨w, hw, hvw⟩
      rcases List.mem_cons.1 hw with rfl | hw
      · exact Or.inl hvw
      · rcases List.mem_cons.1 hw with rfl | hw
        · exact Or.inr (Or.inl (pyEq_str_iff.1 (pyEq_symm hvw)))
        · rcases List.mem_singleton.1 hw with rfl
          exact Or.inr (Or.inr (pyEq_str_iff.1 (pyEq_symm hvw)))
    · rintro (h | h | h)
      · exact ⟨PyVal.int 1, by simp, h⟩
      · exact ⟨PyVal.str "1", by simp, by rw [h]; exact pyEq_refl _⟩
      · exact ⟨PyVal.str "1.0", by simp, by rw [h]; exact pyEq_refl _⟩
  have htwo : pyMem v [PyVal.int 2, PyVal.str "2", PyVal.str "2.0"] = true ↔
      (pyEq v (PyVal.int 2) = true ∨ v = PyVal.str "2" ∨ v = PyVal.str "2.0") := by
    unfold pyMem
    rw [List.any_eq_true]
    constructor
    · rintro ⟨w, hw, hvw⟩
      rcases List.mem_cons.1 hw with rfl | hw
      · exact Or.inl hvw
      · rcases List.mem_cons.1 hw with rfl | hw
        · exact Or.inr (Or.inl (pyEq_str_iff.1 (pyEq_symm hvw)))
        · rcases List.mem_singleton.1 hw with rfl
          exact Or.inr (Or.inr (pyEq_str_iff.1 (pyEq_symm hvw)))
    · rintro (h | h | h)
      · exact ⟨PyVal.int 2, by simp, h⟩
      · exact ⟨PyVal.str "2", by simp, by rw [h]; exact pyEq_refl _⟩
      · exact ⟨PyVal.str "2.0", by simp, by rw [h]; exact pyEq_refl _⟩
  have hdisj : ∀ (h1 : pyEq v (PyVal.int 1) = true ∨ v = PyVal.str "1" ∨ v = PyVal.str "1.0")
      (h2 : pyEq v (PyVal.int 2) = true ∨ v = PyVal.str "2" ∨ v = PyVal.str "2.0"), False := by
    intro h1 h2
    rcases h1 with h1 | h1 | h1
    · rcases h2 with h2 | h2 | h2
      · exact absurd (pyEq_trans (pyEq_symm h1) h2) (by decide)
      · rw [h2] at h1
        exact absurd h1 (by decide)
      · rw [h2] at h1
        exact absurd h1 (by decide)
    · rcases h2 with h2 | h2 | h2
      · rw [h1] at h2
        exact absurd h2 (by decide)
      · rw [h1] at h2
        exact absurd h2 (by decide)
      · rw [h1] at h2
        exact absurd h2 (by decide)
    · rcases h2 with h2 | h2 | h2
      · rw [h1] at h2
        exact absurd h2 (by decide)
      · rw [h1] at h2
        exact absurd h2 (by decide)
      · rw [h1] at h2
        exact absurd h2 (by decide)
  refine ⟨?_, ?_, ?_⟩
  · intro h
    unfold sommersoNew
    rw [if_pos (hone.2 h)]
  · intro h
    have b1 : pyMem v [PyVal.int 1, PyVal.str "1", PyVal.str "1.0"] = false := by
      cases hb : pyMem v [PyVal.int 1, PyVal.str "1", PyVal.str "1.0"]
      · rfl
      · exact absurd (hone.1 hb) (fun h1 => hdisj h1 h)
    unfold sommersoNew
    rw [b1]
    simp only [Bool.false_eq_true, if_false]
    rw [if_pos (htwo.2 h)]
  · intro h1 h2
    have b1 : pyMem v [PyVal.int 1, PyVal.str "1", PyVal.str "1.0"] = false := by
      cases hb : pyMem v [PyVal.int 1, PyVal.str "1", PyVal.str "1.0"]
      · rfl
      · exact absurd (hone.1 hb) h1
    have b2 : pyMem v [PyVal.int 2, PyVal.str "2", PyVal.str "2.0"] = false := by
      cases hb : pyMem v [PyVal.int 2, PyVal.str "2", PyVal.str "2.0"]
      · rfl
      · exact absurd (htwo.1 hb) h2
    unfold sommersoNew
    rw [b1, b2]
    simp

/-- Witness for C5 at the numeric value `1.0`. -/
theorem c5_sommerso_tristate_witness :
    pyEq (PyVal.float 1) (PyVal.int 1) = true ∧ sommersoNew (PyVal.float 1) = "SI" :=
  ⟨by decide, (c5_sommerso_tristate (PyVal.float 1)).1 (Or.inl (by decide))⟩

/-- The `openlibs` variant agrees with the main one on the spec's
Scenario C inputs. -/
theorem somGpkg_scenario_agree :
    ([PyVal.int 1, PyVal.str "1", PyVal.str "1.0", PyVal.float 1,
      PyVal.int 2, PyVal.str "2", PyVal.str "2.0", PyVal.float 2,
      PyVal.none, PyVal.str "x", PyVal.int 3]).all
      (fun v => somGpkg v == sommersoNew v) = true := by decide

/-!
`combine_geology_lines_optimized` (BDgpkg2shape.py 1774-1810)

The merge step returns with only a warning when either output file is
missing; otherwise it records the two counts, appends, re-counts, deletes
the source exactly when the post-append count equals the sum, and then
re-standardizes the destination (in both count branches). `afterCount` is
the count observed after the external `Append_management` call. -/

structure MergeState where
  destExists : Bool
  destCount : ℕ
  srcExists : Bool
  srcCount : ℕ
deriving DecidableEq, Repr

structure MergeOutcome where
  state : MergeState
  appended : Bool
  restandardized : Bool
deriving DecidableEq, Repr

def combineGeologyLines (s : MergeState) (afterCount : ℕ) : MergeOutcome :=
  if !s.destExists then ⟨s, false, false⟩
  else if !s.srcExists then ⟨s, false, false⟩
  else
    if afterCount = s.destCount + s.srcCount then
      ⟨{ s with destCount := afterCount, srcExists := false }, true, true⟩
    else
      ⟨{ s with destCount := afterCount }, true, true⟩

/-- Claim C3: when the post-append count check succeeds, the destination
count equals the pre-append destination count plus the source count and
the source file is deleted. -/
theorem c3_merge_count_verified :
    ∀ (s : MergeState) (afterCount : ℕ),
      s.destExists = true → s.srcExists = true →
      afterCount = s.destCount + s.srcCount →
      (combineGeologyLines s afterCount).state.destCount = s.destCount + s.srcCount ∧
      (combineGeologyLines s afterCount).state.srcExists = false ∧
      (combineGeologyLines s afterCount).appended = true := by
  intro s afterCount hd hs hc
  unfold combineGeologyLines
  rw [hd, hs]
  simp [hc]

/-- Witness for C3: destination 100, source 25, post-append count 125. -/
theorem c3_merge_count_verified_witness :
    (combineGeologyLines ⟨true, 100, true, 25⟩ 125).state.destCount = 125 ∧
    (combineGeologyLines ⟨true, 100, true, 25⟩ 125).state.srcExists = false := by
  have h := c3_merge_count_verified ⟨true, 100, true, 25⟩ 125 rfl rfl (by decide)
  exact ⟨h.1, h.2.1⟩

/-- Claim C10: when either output file is missing, the merge step is a
pure no-op — state unchanged, nothing appended, no source deletion, no
re-standardization. -/
theorem c10_merge_missing_noop :
    ∀ (s : MergeState) (afterCount : ℕ),
      s.destExists = false ∨ s.srcExists = false →
      combineGeologyLines s afterCount = ⟨s, false, false⟩ := by
  intro s afterCount h
  unfold combineGeologyLines
  rcases h with h | h
  · rw [h]
    rfl
  · rw [h]
    cases hd : s.destExists <;> rfl

/-- Witness for C10: missing source file. -/
theorem c10_merge_missing_noop_witness :
    combineGeologyLines ⟨true, 100, false, 25⟩ 125 = ⟨⟨true, 100, false, 25⟩, false, false⟩ :=
  c10_merge_missing_noop ⟨true, 100, false, 25⟩ 125 (Or.inr rfl)

/-!
`_cleanup_output_fields` (BDgpkg2shape.py 1649-1736)

The keep set is the configured keep-list plus the system names FID and
Shape, plus "Foglio" when present.  Attribute fields are those whose type
is neither OID nor Geometry.  When deleting the non-kept attribute fields
would leave no attribute field outside the system names, one field is
rescued from the deletion list — the first hit of a fixed priority list,
else the first in deletion order.  After deletion, a fatal error is
raised when no attribute field remains. -/

def systemFields : List String := ["FID", "Shape"]

def priorityFields : List String :=
  ["Foglio", "Tipo_g_txt", "Tipo_G_txt", "Tipol_txt", "Fase_txt",
   "Tipo_geo", "Tipologia", "Fase", "Label", "Num_Oss", "Pun_Gmo",
   "Lin_Gmo", "Pol_Gmo", "Num_Ris"]

/-- Names of fields whose type is not OID and not Geometry (the code's
`existing_fields`). -/
def attrFieldNames (fields : List FieldInfo) : List String :=
  (fields.filter (fun f =>
    !(f.ftype == FieldType.oid) && !(f.ftype == FieldType.geometry))).map (fun f => f.name)

/-- Keep set `fields_to_keep` after adding the system names and, when present,
"Foglio". -/
def keepSetFor (fields : List FieldInfo) (keep : List String) : List String :=
  keep ++ systemFields ++
    (if (fields.map (fun f => f.name)).contains "Foglio" then ["Foglio"] else [])

/-- Deletion list `fields_to_delete`. -/
def fieldsToDeleteFor (fields : List FieldInfo) (keep : List String) : List String :=
  (attrFieldNames fields).filter (fun n => !(keepSetFor fields keep).contains n)

/-- Survivors `remaining_data_fields`: attribute fields that are neither scheduled
for deletion nor named like a system field. -/
def remainingDataFor (fields : List FieldInfo) (keep : List String) : List String :=
  (attrFieldNames fields).filter (fun n =>
    !(fieldsToDeleteFor fields keep).contains n && !systemFields.contains n)

/-- The field rescued by the security check: first priority-list hit in
the deletion list, else the first field in deletion order. -/
def rescuedFieldFor (fields : List FieldInfo) (keep : List String) : Option String :=
  match priorityFields.find? (fun p => (fieldsToDeleteFor fields keep).contains p) with
  | some p => some p
  | Option.none => (fieldsToDeleteFor fields keep).head?

/-- The deletion list actually executed, after the security check. -/
def finalDeleteFor (fields : List FieldInfo) (keep : List String) : List String :=
  if (remainingDataFor fields keep).isEmpty then
    match rescuedFieldFor fields keep with
    | some r => (fieldsToDeleteFor fields keep).erase r
    | Option.none => fieldsToDeleteFor fields keep
  else fieldsToDeleteFor fields keep

inductive CleanupResult where
  | ok : List FieldInfo → CleanupResult
  | emptySchemaError : CleanupResult
deriving DecidableEq, Repr

/-- Cleanup `_cleanup_output_fields`: delete the final deletion list, then raise
when no attribute field remains. -/
def cleanupOutputFields (fields : List FieldInfo) (keep : List String) : CleanupResult :=
  if (attrFieldNames (fields.filter
      (fun f => !(finalDeleteFor fields keep).contains f.name))).isEmpty then
    CleanupResult.emptySchemaError
  else
    CleanupResult.ok (fields.filter (fun f => !(finalDeleteFor fields keep).contains f.name))

/-- Well-formedness of a shapefile's field table: names are unique, and
the reserved names FID and Shape carry their reserved types. -/
def wfFields (fields : List FieldInfo) : Prop :=
  (fields.map (fun f => f.name)).Nodup ∧
  ∀ f ∈ fields, (f.name = "FID" → f.ftype = FieldType.oid) ∧
    (f.name = "Shape" → f.ftype = FieldType.geometry)

instance wfFieldsDecidable (fields : List FieldInfo) : Decidable (wfFields fields) := by
  unfold wfFields
  infer_instance

theorem strContains_iff {l : List String} {a : String} : l.contains a = true ↔ a ∈ l :=
  ⟨fun h => List.mem_of_elem_eq_true h, fun h => List.elem_eq_true_of_mem h⟩

theorem mem_attrFieldNames {fields : List FieldInfo} {n : String} :
    n ∈ attrFieldNames fields ↔
      ∃ f ∈ fields, f.name = n ∧ f.ftype ≠ FieldType.oid ∧ f.ftype ≠ FieldType.geometry := by
  unfold attrFieldNames
  rw [List.mem_map]
  constructor
  · rintro ⟨f, hf, rfl⟩
    rw [List.mem_filter] at hf
    refine ⟨f, hf.1, rfl, ?_, ?_⟩
    · intro hc
      have := hf.2
      rw [hc] at this
      simp at this
    · intro hc
      have := hf.2
      rw [hc] at this
      simp at this
  · rintro ⟨f, hf, rfl, h1, h2⟩
    refine ⟨f, List.mem_filter.2 ⟨hf, ?_⟩, rfl⟩
    simp [h1, h2]

theorem attrFieldNames_not_system {fields : List FieldInfo} (hwf : wfFields fields)
    {n : String} (hn : n ∈ attrFieldNames fields) : n ≠ "FID" ∧ n ≠ "Shape" := by
  obtain ⟨f, hf, rfl, h1, h2⟩ := mem_attrFieldNames.1 hn
  constructor
  · intro hc
    exact h1 ((hwf.2 f hf).1 hc)
  · intro hc
    exact h2 ((hwf.2 f hf).2 hc)

theorem attrFieldNames_nodup {fields : List FieldInfo} (hwf : wfFields fields) :
    (attrFieldNames fields).Nodup := by
  unfold attrFieldNames
  exact ((List.filter_sublist fields).map (fun f => f.name)).nodup hwf.1

theorem finalDeleteFor_subset {fields : List FieldInfo} {keep : List String} :
    ∀ x ∈ finalDeleteFor fields keep, x ∈ fieldsToDeleteFor fields keep := by
  intro x hx
  unfold finalDeleteFor at hx
  by_cases hrem : (remainingDataFor fields keep).isEmpty = true
  · rw [if_pos hrem] at hx
    cases hres : rescuedFieldFor fields keep with
    | some r =>
      rw [hres] at hx
      exact (List.erase_sublist r _).subset hx
    | none =>
      rw [hres] at hx
      exact hx
  · rw [if_neg hrem] at hx
    exact hx

theorem cleanup_ok_nonempty {fields : List FieldInfo} {keep : List String} :
    ∀ after, cleanupOutputFields fields keep = CleanupResult.ok after →
      attrFieldNames after ≠ [] := by
  intro after hok
  unfold cleanupOutputFields at hok
  by_cases hie : (attrFieldNames (fields.filter
      (fun f => !(finalDeleteFor fields keep).contains f.name))).isEmpty = true
  · rw [if_pos hie] at hok
    cases hok
  · rw [if_neg hie] at hok
    injection hok with hok
    rw [← hok]
    intro hc
    exact hie (by rw [hc]; rfl)

/-- Claim C2's rescue clause, as a reusable lemma: when the remaining-data
check fires and attribute fields exist, exactly one field is removed from
the deletion list — the first priority hit, else the head. -/
theorem cleanup_rescue {fields : List FieldInfo} {keep : List String}
    (hwf : wfFields fields)
    (hrem : remainingDataFor fields keep = [])
    (hattr : attrFieldNames fields ≠ []) :
    ∃ r, rescuedFieldFor fields keep = some r ∧
      r ∈ fieldsToDeleteFor fields keep ∧
      finalDeleteFor fields keep = (fieldsToDeleteFor fields keep).erase r ∧
      (finalDeleteFor fields keep).length + 1 = (fieldsToDeleteFor fields keep).length ∧
      (priorityFields.find? (fun p => (fieldsToDeleteFor fields keep).contains p) = some r ∨
        (priorityFields.find? (fun p => (fieldsToDeleteFor fields keep).contains p) = Option.none ∧
          (fieldsToDeleteFor fields keep).head? = some r)) := by
  obtain ⟨n0, hn0⟩ : ∃ n0, n0 ∈ attrFieldNames fields := by
    cases h : attrFieldNames fields with
    | nil => exact absurd h hattr
    | cons a l => exact ⟨a, h ▸ List.mem_cons_self a l⟩
  have hn0D : n0 ∈ fieldsToDeleteFor fields keep := by
    by_contra hnD
    have hmem : n0 ∈ remainingDataFor fields keep := by
      unfold remainingDataFor
      rw [List.mem_filter]
      refine ⟨hn0, ?_⟩
      rw [Bool.and_eq_true]
      constructor
      · cases hc : (fieldsToDeleteFor fields keep).contains n0
        · rfl
        · exact absurd (strContains_iff.1 hc) hnD
      · have hns := attrFieldNames_not_system hwf hn0
        cases hc : systemFields.contains n0
        · rfl
        · have hmem2 := strContains_iff.1 hc
          simp [systemFields] at hmem2
          rcases hmem2 with rfl | rfl
          · exact absurd rfl hns.1
          · exact absurd rfl hns.2
    rw [hrem] at hmem
    exact List.not_mem_nil n0 hmem
  have hDne : fieldsToDeleteFor fields keep ≠ [] :=
    fun hD => List.not_mem_nil n0 (hD ▸ hn0D)
  have hremE : (remainingDataFor fields keep).isEmpty = true := by
    rw [hrem]
    rfl
  cases hfind : priorityFields.find? (fun p => (fieldsToDeleteFor fields keep).contains p) with
  | some p =>
    have hpD : p ∈ fieldsToDeleteFor fields keep := by
      have hx := List.find?_some hfind
      exact strContains_iff.1 (by simpa using hx)
    have hres : rescuedFieldFor fields keep = some p := by
      unfold rescuedFieldFor
      rw [hfind]
    have hFD : finalDeleteFor fields keep = (fieldsToDeleteFor fields keep).erase p := by
      unfold finalDeleteFor
      rw [hremE, hres]
      rfl
    refine ⟨p, hres, hpD, hFD, ?_, Or.inl rfl⟩
    rw [hFD, List.length_erase_of_mem hpD]
    have hpos : 0 < (fieldsToDeleteFor fields keep).length := List.length_pos.2 hDne
    omega
  | none =>
    obtain ⟨h0, t0, hD⟩ : ∃ h0 t0, fieldsToDeleteFor fields keep = h0 :: t0 := by
      cases hD : fieldsToDeleteFor fields keep with
      | nil => exact absurd hD hDne
      | cons a l => exact ⟨a, l, rfl⟩
    have hres : rescuedFieldFor fields keep = some h0 := by
      unfold rescuedFieldFor
      rw [hfind, hD]
      rfl
    have hh0D : h0 ∈ fieldsToDeleteFor fields keep := by
      rw [hD]
      exact List.mem_cons_self _ _
    have hFD : finalDeleteFor fields keep = (fieldsToDeleteFor fields keep).erase h0 := by
      unfold finalDeleteFor
      rw [hremE, hres]
      rfl
    refine ⟨h0, hres, hh0D, hFD, ?_, Or.inr ⟨rfl, by rw [hD]; rfl⟩⟩
    rw [hFD, List.length_erase_of_mem hh0D]
    have hpos : 0 < (fieldsToDeleteFor fields keep).length := List.length_pos.2 hDne
    omega

/-- Claim C2: under shapefile well-formedness, cleanup raises the
empty-schema error exactly when the file had no attribute fields at all;
every successful cleanup keeps at least one attribute field; and whenever
the security check fires on a file that does have attribute fields,
exactly one field is rescued from the deletion list — the first
priority-list hit, else the first in deletion order. -/
theorem c2_cleanup_never_empty :
    ∀ (fields : List FieldInfo) (keep : List String), wfFields fields →
      (cleanupOutputFields fields keep = CleanupResult.emptySchemaError ↔
        attrFieldNames fields = []) ∧
      (∀ after, cleanupOutputFields fields keep = CleanupResult.ok after →
        attrFieldNames after ≠ []) ∧
      (remainingDataFor fields keep = [] → attrFieldNames fields ≠ [] →
        ∃ r, rescuedFieldFor fields keep = some r ∧
          r ∈ fieldsToDeleteFor fields keep ∧
          finalDeleteFor fields keep = (fieldsToDeleteFor fields keep).erase r ∧
          (finalDeleteFor fields keep).length + 1 = (fieldsToDeleteFor fields keep).length ∧
          (priorityFields.find? (fun p => (fieldsToDeleteFor fields keep).contains p) = some r ∨
            (priorityFields.find? (fun p => (fieldsToDeleteFor fields keep).contains p) =
              Option.none ∧
              (fieldsToDeleteFor fields keep).head? = some r))) := by
  intro fields keep hwf
  have hafter_ne : attrFieldNames fields ≠ [] →
      attrFieldNames (fields.filter
        (fun f => !(finalDeleteFor fields keep).contains f.name)) ≠ [] := by
    intro hattr
    by_cases hrem : remainingDataFor fields keep = []
    · obtain ⟨r, hres, hrD, hFD, _, _⟩ := cleanup_rescue hwf hrem hattr
      have hDnodup : (fieldsToDeleteFor fields keep).Nodup :=
        (attrFieldNames_nodup hwf).filter _
      have hrnotFD : r ∉ finalDeleteFor fields keep := by
        rw [hFD]
        intro hc
        exact ((List.Nodup.mem_erase_iff hDnodup).1 hc).1 rfl
      have hrattr : r ∈ attrFieldNames fields := (List.mem_filter.1 hrD).1
      obtain ⟨f, hf, hfname, ht1, ht2⟩ := mem_attrFieldNames.1 hrattr
      have hfafter : f ∈ fields.filter
          (fun f => !(finalDeleteFor fields keep).contains f.name) := by
        refine List.mem_filter.2 ⟨hf, ?_⟩
        cases hc : (finalDeleteFor fields keep).contains f.name
        · rfl
        · exact absurd (strContains_iff.1 hc) (hfname ▸ hrnotFD)
      intro hnil
      rw [← hfname] at hrattr
      exact List.not_mem_nil f.name
        (hnil ▸ mem_attrFieldNames.2 ⟨f, hfafter, rfl, ht1, ht2⟩)
    · obtain ⟨n, hn⟩ : ∃ n, n ∈ remainingDataFor fields keep := by
        cases h : remainingDataFor fields keep with
        | nil => exact absurd h hrem
        | cons a l => exact ⟨a, h ▸ List.mem_cons_self a l⟩
      have hn2 := List.mem_filter.1 hn
      have hnattr : n ∈ attrFieldNames fields := hn2.1
      have hnD : n ∉ fieldsToDeleteFor fields keep := by
        intro hc
        have hb := hn2.2
        rw [Bool.and_eq_true] at hb
        have := hb.1
        rw [strContains_iff.2 hc] at this
        cases this
      have hnFD : n ∉ finalDeleteFor fields keep :=
        fun hc => hnD (finalDeleteFor_subset n hc)
      obtain ⟨f, hf, hfname, ht1, ht2⟩ := mem_attrFieldNames.1 hnattr
      have hfafter : f ∈ fields.filter
          (fun f => !(finalDeleteFor fields keep).contains f.name) := by
        refine List.mem_filter.2 ⟨hf, ?_⟩
        cases hc : (finalDeleteFor fields keep).contains f.name
        · rfl
        · exact absurd (strContains_iff.1 hc) (hfname ▸ hnFD)
      intro hnil
      exact List.not_mem_nil f.name
        (hnil ▸ mem_attrFieldNames.2 ⟨f, hfafter, rfl, ht1, ht2⟩)
  refine ⟨⟨?_, ?_⟩, cleanup_ok_nonempty, fun hrem hattr => cleanup_rescue hwf hrem hattr⟩
  · intro herr
    by_contra hattr
    have hne := hafter_ne hattr
    unfold cleanupOutputFields at herr
    rw [if_neg (fun hie => hne (List.isEmpty_iff.1 hie))] at herr
    cases herr
  · intro hattr
    have hafter0 : attrFieldNames (fields.filter
        (fun f => !(finalDeleteFor fields keep).contains f.name)) = [] := by
      cases h : attrFieldNames (fields.filter
          (fun f => !(finalDeleteFor fields keep).contains f.name)) with
      | nil => rfl
      | cons a l =>
        exfalso
        have ha : a ∈ attrFieldNames (fields.filter
            (fun f => !(finalDeleteFor fields keep).contains f.name)) := by
          rw [h]
          exact List.mem_cons_self a l
        obtain ⟨f, hf, hfname, ht1, ht2⟩ := mem_attrFieldNames.1 ha
        have hffields : f ∈ fields := (List.mem_filter.1 hf).1
        have : a ∈ attrFieldNames fields :=
          mem_attrFieldNames.2 ⟨f, hffields, hfname, ht1, ht2⟩
        rw [hattr] at this
        exact List.not_mem_nil a this
    unfold cleanupOutputFields
    rw [if_pos (by rw [hafter0]; rfl)]

/-- Witness for C2 on a file whose only attribute field is TempX with an
empty keep-list (the rescue path). -/
theorem c2_cleanup_never_empty_witness :
    wfFields [⟨"FID", FieldType.oid⟩, ⟨"Shape", FieldType.geometry⟩,
      ⟨"TempX", FieldType.text⟩] ∧
    (cleanupOutputFields [⟨"FID", FieldType.oid⟩, ⟨"Shape", FieldType.geometry⟩,
        ⟨"TempX", FieldType.text⟩] [] = CleanupResult.emptySchemaError ↔
      attrFieldNames [⟨"FID", FieldType.oid⟩, ⟨"Shape", FieldType.geometry⟩,
        ⟨"TempX", FieldType.text⟩] = []) :=
  ⟨by decide, (c2_cleanup_never_empty _ [] (by decide)).1⟩

/-- Counterexample to claim C4 as stated: on Scenario D's file, cleanup
deletes TempX (the rescue rule does not fire because Foglio survives), so
the result does not retain the highest-priority field of the deletion
set. -/
theorem c4_counterexample :
    cleanupOutputFields
      [⟨"FID", FieldType.oid⟩, ⟨"Shape", FieldType.geometry⟩,
       ⟨"Foglio", FieldType.text⟩, ⟨"TempX", FieldType.text⟩] ["Foglio"] =
      CleanupResult.ok
        [⟨"FID", FieldType.oid⟩, ⟨"Shape", FieldType.geometry⟩,
         ⟨"Foglio", FieldType.text⟩] ∧
    "TempX" ∉ ([⟨"FID", FieldType.oid⟩, ⟨"Shape", FieldType.geometry⟩,
        ⟨"Foglio", FieldType.text⟩] : List FieldInfo).map (fun f => f.name) := by
  decide

/-- Claim C4 (amended): cleanup with keep-list ["Foglio"] on a file whose
only other attribute field is TempX retains Foglio and deletes TempX; the
rescue branch does not trigger because Foglio itself survives, so the
schema stays non-empty with Foglio alone. -/
theorem c4_cleanup_scenario_amended :
    cleanupOutputFields
      [⟨"FID", FieldType.oid⟩, ⟨"Shape", FieldType.geometry⟩,
       ⟨"Foglio", FieldType.text⟩, ⟨"TempX", FieldType.text⟩] ["Foglio"] =
      CleanupResult.ok
        [⟨"FID", FieldType.oid⟩, ⟨"Shape", FieldType.geometry⟩,
         ⟨"Foglio", FieldType.text⟩] ∧
    remainingDataFor
      [⟨"FID", FieldType.oid⟩, ⟨"Shape", FieldType.geometry⟩,
       ⟨"Foglio", FieldType.text⟩, ⟨"TempX", FieldType.text⟩] ["Foglio"] = ["Foglio"] ∧
    finalDeleteFor
      [⟨"FID", FieldType.oid⟩, ⟨"Shape", FieldType.geometry⟩,
       ⟨"Foglio", FieldType.text⟩, ⟨"TempX", FieldType.text⟩] ["Foglio"] = ["TempX"] := by
  decide

theorem cleanup_ok_eq {fields : List FieldInfo} {keep : List String} :
    ∀ {after}, cleanupOutputFields fields keep = CleanupResult.ok after →
      after = fields.filter (fun f => !(finalDeleteFor fields keep).contains f.name) := by
  intro after hok
  unfold cleanupOutputFields at hok
  by_cases hie : (attrFieldNames (fields.filter
      (fun f => !(finalDeleteFor fields keep).contains f.name))).isEmpty = true
  · rw [if_pos hie] at hok
    cases hok
  · rw [if_neg hie] at hok
    injection hok with h
    exact h.symm

/-- Claim C8: whenever a field named Foglio exists, it is added to the
keep set before the deletion list is computed, and cleanup never deletes
it, even when it is absent from the configured keep-list. -/
theorem c8_foglio_always_kept :
    ∀ (fields : List FieldInfo) (keep : List String),
      "Foglio" ∈ fields.map (fun f => f.name) →
      "Foglio" ∈ keepSetFor fields keep ∧
      ∀ after, cleanupOutputFields fields keep = CleanupResult.ok after →
        "Foglio" ∈ after.map (fun f => f.name) := by
  intro fields keep hmem
  have hks : "Foglio" ∈ keepSetFor fields keep := by
    unfold keepSetFor
    refine List.mem_append_right _ ?_
    rw [if_pos (strContains_iff.2 hmem)]
    exact List.mem_singleton.2 rfl
  refine ⟨hks, ?_⟩
  intro after hok
  have hnD : "Foglio" ∉ fieldsToDeleteFor fields keep := by
    intro hc
    have hb := (List.mem_filter.1 hc).2
    rw [strContains_iff.2 hks] at hb
    cases hb
  have hnFD : "Foglio" ∉ finalDeleteFor fields keep :=
    fun hc => hnD (finalDeleteFor_subset _ hc)
  obtain ⟨f, hf, hfname⟩ := List.mem_map.1 hmem
  rw [cleanup_ok_eq hok]
  refine List.mem_map.2 ⟨f, ?_, hfname⟩
  refine List.mem_filter.2 ⟨hf, ?_⟩
  cases hc : (finalDeleteFor fields keep).contains f.name
  · rfl
  · exact absurd (strContains_iff.1 hc) (hfname ▸ hnFD)

/-- Witness for C8: a file holding a Foglio field with an empty keep-list. -/
theorem c8_foglio_always_kept_witness :
    "Foglio" ∈ keepSetFor [⟨"Foglio", FieldType.text⟩] [] ∧
    "Foglio" ∈ ([⟨"Foglio", FieldType.text⟩] : List FieldInfo).map (fun f => f.name) := by
  have h := c8_foglio_always_kept [⟨"Foglio", FieldType.text⟩] [] (by decide)
  exact ⟨h.1, h.2 [⟨"Foglio", FieldType.text⟩] (by decide)⟩

/-!
`load_domain_mappings` as a stateful registry (C6)

`BDgpkg2shape.py` initialises `_domain_cache` in `__init__` (51-53) but
its `load_domain_mappings` (704-791) never consults it: every call
resolves the table from the file system again.  The PRO variant
(script/BDgpkg2shapePRO.py 779-859) checks the cache first, keyed by
`(domain_file, code_field, desc_field_pattern, is_gpkg_table)`, and
stores the map after a successful load.  The file system is modelled as
an association list from (file, is_gpkg_table) to the table currently on
disk, so that re-reading is observable. -/

structure DomainTable where
  fieldNames : List String
  rows : List (List (String × PyVal))
deriving DecidableEq, Repr

/-- Python's substring test `needle in hay`. -/
def containsSub (needle hay : List Char) : Bool :=
  hay.tails.any (fun t => needle.isPrefixOf t)

/-- Case-insensitive description-field resolution:
`desc_field_pattern.upper() in field_name.upper()`, first hit. -/
def findDescField (names : List String) (pat : String) : Option String :=
  names.find? (fun n => containsSub (upStr pat).data (upStr n).data)

def tableRowGet (r : List (String × PyVal)) (f : String) : PyVal :=
  ((r.find? (fun p => p.1 == f)).map (fun p => p.2)).getD PyVal.none

/-- The table-reading part of `load_domain_mappings`: `Option.none`
models the warn-and-return-empty paths (description field unmatched, code
field missing). -/
def loadFromTable (t : DomainTable) (codeField descPat : String) : Option CodeMap :=
  match findDescField t.fieldNames descPat with
  | Option.none => Option.none
  | some descF =>
    if t.fieldNames.contains codeField then
      some (loadDomainRows (t.rows.map (fun r =>
        (tableRowGet r codeField, tableRowGet r descF))))
    else Option.none

abbrev DomainPath := String × Bool

abbrev CacheKey := String × String × String × Bool

structure RegistryState where
  fs : List (DomainPath × DomainTable)
  cache : List (CacheKey × CodeMap)
deriving DecidableEq, Repr

def assocFind {α β : Type} [BEq α] (l : List (α × β)) (k : α) : Option β :=
  (l.find? (fun p => p.1 == k)).map (fun p => p.2)

/-- Base `load_domain_mappings` of BDgpkg2shape.py: resolves from the file
system on every call; `_domain_cache` is never consulted or updated. -/
def loadDomainMappings_base (st : RegistryState) (file codeField descPat : String)
    (isGpkg : Bool) : CodeMap × RegistryState :=
  match assocFind st.fs (file, isGpkg) with
  | Option.none => ([], st)
  | some t => ((loadFromTable t codeField descPat).getD [], st)

/-- Cached `load_domain_mappings` of script/BDgpkg2shapePRO.py: returns the
cached map when the 4-tuple key is present, otherwise reads the table and
caches the result on the successful path (missing table or unmatched
fields return empty without caching). -/
def loadDomainMappings_pro (st : RegistryState) (file codeField descPat : String)
    (isGpkg : Bool) : CodeMap × RegistryState :=
  match assocFind st.cache (file, codeField, descPat, isGpkg) with
  | some m => (m, st)
  | Option.none =>
    match assocFind st.fs (file, isGpkg) with
    | Option.none => ([], st)
    | some t =>
      match loadFromTable t codeField descPat with
      | Option.none => ([], st)
      | some m =>
        (m, { st with cache := st.cache ++ [((file, codeField, descPat, isGpkg), m)] })

def exC6Table1 : DomainTable :=
  ⟨["CODE", "DESC"], [[("CODE", PyVal.str "X"), ("DESC", PyVal.str "A")]]⟩

def exC6Table2 : DomainTable :=
  ⟨["CODE", "DESC"], [[("CODE", PyVal.str "X"), ("DESC", PyVal.str "B")]]⟩

def exC6fs1 : List (DomainPath × DomainTable) := [(("d_test.dbf", false), exC6Table1)]

def exC6fs2 : List (DomainPath × DomainTable) := [(("d_test.dbf", false), exC6Table2)]

/-- Counterexample to claim C6 as stated: in BDgpkg2shape.py a second
load call with the same arguments does not return the map cached by the
first successful load — it re-reads the file, observably so when the
table on disk changed between the calls. -/
theorem c6_counterexample :
    (loadDomainMappings_base
        ⟨exC6fs2, (loadDomainMappings_base ⟨exC6fs1, []⟩ "d_test.dbf" "CODE" "DESC" false).2.cache⟩
        "d_test.dbf" "CODE" "DESC" false).1 ≠
      (loadDomainMappings_base ⟨exC6fs1, []⟩ "d_test.dbf" "CODE" "DESC" false).1 := by
  decide

theorem assocFind_append_none {α β : Type} [BEq α] {l1 : List (α × β)} {l2 : List (α × β)}
    {k : α} (h : assocFind l1 k = Option.none) :
    assocFind (l1 ++ l2) k = assocFind l2 k := by
  unfold assocFind at h ⊢
  induction l1 with
  | nil => rfl
  | cons e l ih =>
    simp only [List.cons_append, List.find?_cons] at h ⊢
    cases hb : e.1 == k
    · simp only [hb] at h ⊢
      exact ih h
    · simp only [hb] at h
      simp at h

/-- Claim C6 (amended, PRO variant): once a load call for a key has
succeeded (or the key is already cached), every later call with the same
arguments returns that same map from the cache without re-reading —
whatever the file system then holds, and also when the cached map is
empty. -/
theorem c6_pro_caching :
    ∀ (st : RegistryState) (file codeField descPat : String) (isGpkg : Bool)
      (fs2 : List (DomainPath × DomainTable)),
      ((assocFind st.cache (file, codeField, descPat, isGpkg)).isSome ∨
        (∃ t, assocFind st.fs (file, isGpkg) = some t ∧
          (loadFromTable t codeField descPat).isSome)) →
      (loadDomainMappings_pro
          ⟨fs2, (loadDomainMappings_pro st file codeField descPat isGpkg).2.cache⟩
          file codeField descPat isGpkg).1 =
        (loadDomainMappings_pro st file codeField descPat isGpkg).1 := by
  intro st file codeField descPat isGpkg fs2 h
  unfold loadDomainMappings_pro
  cases hcache : assocFind st.cache (file, codeField, descPat, isGpkg) with
  | some m =>
    simp only [hcache]
  | none =>
    rcases h with h | ⟨t, hfs, hload⟩
    · rw [hcache] at h
      cases h
    · cases hlt : loadFromTable t codeField descPat with
      | none =>
        rw [hlt] at hload
        cases hload
      | some m =>
        have happ : assocFind
            (st.cache ++ [((file, codeField, descPat, isGpkg), m)])
            (file, codeField, descPat, isGpkg) = some m := by
          rw [assocFind_append_none hcache]
          simp [assocFind]
        simp only [hcache, hfs, hlt, happ]

/-- Witness for the amended C6 at a concrete successful first load whose
file later changes on disk. -/
theorem c6_pro_caching_witness :
    (loadDomainMappings_pro
        ⟨exC6fs2, (loadDomainMappings_pro ⟨exC6fs1, []⟩ "d_test.dbf" "CODE" "DESC" false).2.cache⟩
        "d_test.dbf" "CODE" "DESC" false).1 =
      (loadDomainMappings_pro ⟨exC6fs1, []⟩ "d_test.dbf" "CODE" "DESC" false).1 :=
  c6_pro_caching ⟨exC6fs1, []⟩ "d_test.dbf" "CODE" "DESC" false exC6fs2
    (Or.inr ⟨exC6Table1, by decide, by decide⟩)

/-!
Sheet-id (Foglio) injection (C7)

`_add_foglio_field` in BDgpkg2shape.py (1639-1647) writes the raw
extracted `self.foglio` value into the Foglio field of every row, with no
lookup.  The PRO variant (script/BDgpkg2shapePRO.py 1697-1723) loads the
`d_foglio.dbf` domain and writes `foglio_domain.get(self.foglio,
self.foglio)`, falling back to the raw value also when the domain is
empty.  `openlibs/gpkg_pipeline.py` (96-97) computes
`foglio_map.get(foglio, foglio)`.  Each model returns the field list
after the ensure-field step together with the value written to every
row. -/

def addFoglioField_base (fields : List FieldInfo) (foglio : String) :
    List FieldInfo × String :=
  ((if (fields.map (fun f => upStr f.name)).contains "FOGLIO" then fields
    else fields ++ [⟨"Foglio", FieldType.text⟩]), foglio)

def addFoglioField_pro (fields : List FieldInfo) (foglioDomain : CodeMap)
    (foglio : String) : List FieldInfo × String :=
  ((if (fields.map (fun f => upStr f.name)).contains "FOGLIO" then fields
    else fields ++ [⟨"Foglio", FieldType.text⟩]),
   if foglioDomain.isEmpty then foglio
   else (mapFind foglioDomain (PyVal.str foglio)).getD foglio)

/-- Computation `foglio_txt = foglio_map.get(foglio, foglio)` of
openlibs/gpkg_pipeline.py. -/
def foglioTxt_gpkg (dom : CodeMap) (foglio : String) : String :=
  (mapFind dom (PyVal.str foglio)).getD foglio

/-- Claim C7's resolution rule, written from the spec's words: a
dedicated domain lookup keyed by the sheet number, falling back to the
raw sheet value when the lookup does not map it. -/
def foglioResolvedPerSpec (dom : CodeMap) (foglio : String) : String :=
  (mapFind dom (PyVal.str foglio)).getD foglio

/-- Counterexample to claim C7 as stated: with a domain mapping sheet "1"
to a description, `_add_foglio_field` of BDgpkg2shape.py writes the raw
value "1", not the lookup resolution. -/
theorem c7_counterexample :
    (addFoglioField_base [] "1").2 = "1" ∧
    foglioResolvedPerSpec [(PyVal.str "1", "Foglio 013 Merano")] "1" = "Foglio 013 Merano" ∧
    (addFoglioField_base [] "1").2 ≠
      foglioResolvedPerSpec [(PyVal.str "1", "Foglio 013 Merano")] "1" := by
  decide

/-- Claim C7 (amended): the PRO variant and the openlibs pipeline write
the domain-resolved sheet value with fallback to the raw value (also when
the domain map is empty), while BDgpkg2shape.py writes the raw sheet
value with no lookup. -/
theorem c7_foglio_amended :
    ∀ (fields : List FieldInfo) (dom : CodeMap) (foglio : String),
      (addFoglioField_pro fields dom foglio).2 = foglioResolvedPerSpec dom foglio ∧
      foglioTxt_gpkg dom foglio = foglioResolvedPerSpec dom foglio ∧
      (addFoglioField_base fields foglio).2 = foglio := by
  intro fields dom foglio
  refine ⟨?_, rfl, rfl⟩
  unfold addFoglioField_pro foglioResolvedPerSpec
  cases dom with
  | nil => simp [mapFind]
  | cons e l => rfl
